import Mathlib

/-!
# MultiMC5: system RAM probe, modpack import dispatch, scripted entity providers

A shallow embedding of three routines of the launcher and the properties
established about them:

* `Sys::getSystemRam` (libraries/systeminfo/src/sys_unix.cpp),
* `findRecursive` and `InstanceImportTask::extractFinished`
  (api/logic/InstanceImportTask.cpp),
* `convert` and the constructor of `EntityProvider`
  (api/logic/scripting/EntityProvider.cpp).

Definitions come first, theorems afterwards.
-/

/-! ## Part 1: definitions for `Sys::getSystemRam` -/

namespace Sys

/-- The contents of a `std::ifstream`: the characters not yet consumed, one
`Char` per byte of the file.  Only ASCII space, digit and sign bytes are ever
inspected, so every other byte behaves alike. -/
abbrev Stream := List Char

/-- Whitespace as classified by `std::isspace` in the "C" locale: space,
`\t`, `\n`, `\v`, `\f`, `\r`.  This is what the formatted extractors skip. -/
def isSpace (c : Char) : Bool :=
  c.toNat = 32 || (9 ≤ c.toNat && c.toNat ≤ 13)

/-- The line terminator passed to `file.ignore(..., '\n')`. -/
def isNewline (c : Char) : Bool := c.toNat = 10

/-- The literal the token is compared with on line 22. -/
def memTotalKey : List Char := "MemTotal:".toList

/-- Value of a run of decimal digits, most significant digit first. -/
def decimalValue (ds : List Char) : Nat :=
  ds.foldl (fun acc c => 10 * acc + (c.toNat - 48)) 0

/-- `file >> token` for a `std::string` (line 20): skip leading whitespace;
fail when the stream is exhausted; otherwise extract the maximal run of
non-whitespace characters.  Returns the token and the rest of the stream. -/
def readToken (s : Stream) : Option (List Char × Stream) :=
  match s.dropWhile isSpace with
  | [] => none
  | c :: cs =>
    some ((c :: cs).takeWhile (fun x => !isSpace x),
          (c :: cs).dropWhile (fun x => !isSpace x))

/-- `file.ignore(std::numeric_limits<std::streamsize>::max(), '\n')`
(line 35): discard characters up to and including the next newline, or up to
the end of the stream when there is none. -/
def ignoreLine (s : Stream) : Stream :=
  (s.dropWhile (fun x => !isNewline x)).drop 1

/-- `file >> mem` for a `uint64_t` (line 25), as `std::num_get` performs it
with the default decimal base: skip leading whitespace, accept one optional
sign, accumulate decimal digits.  The extraction fails when there is no digit
or when the digits denote a value above `2^64 - 1`; a leading minus sign
negates the value modulo `2^64`.  Only the value is returned, because the
caller returns right after the extraction. -/
def readUInt64 (s : Stream) : Option Nat :=
  let s1 := s.dropWhile isSpace
  let signed : Bool × Stream :=
    match s1 with
    | c :: cs => if c.toNat = 45 then (true, cs) else if c.toNat = 43 then (false, cs) else (false, s1)
    | [] => (false, s1)
  let ds := signed.2.takeWhile Char.isDigit
  if ds = [] then none
  else if 2 ^ 64 ≤ decimalValue ds then none
  else some (if signed.1 then (2 ^ 64 - decimalValue ds) % 2 ^ 64 else decimalValue ds)

/-- The `while (file >> token)` loop of lines 20-36.  `fuel` bounds the
number of iterations; `none` means the bound was reached, `some r` that the
function returned `r`. -/
def scanLoop : Nat → Stream → Option Nat
  | 0, _ => none
  | fuel + 1, s =>
    match readToken s with
    | none => some 0
    | some (token, rest) =>
      if token = memTotalKey then
        match readUInt64 rest with
        | some mem => some (mem * 1024 % 2 ^ 64)
        | none => some 0
      else scanLoop fuel (ignoreLine rest)

/-- `Sys::getSystemRam` as a function of the file: `none` for a file that
cannot be opened (every extraction on the stream then fails), `some text`
for its contents.  Each iteration consumes at least one character, so
`text.length + 1` iterations always suffice (see `scanLoop_returns`). -/
def getSystemRam (file : Option Stream) : Option Nat :=
  match file with
  | none => some 0
  | some text => scanLoop (text.length + 1) text

/-- The result the function returns once the key has been read, as a function
of the stream after the key (lines 24-32). -/
def resultAfterKey (rest : Stream) : Option Nat :=
  match readUInt64 rest with
  | some mem => some (mem * 1024 % 2 ^ 64)
  | none => some 0

/-! ### The reference described in words, and the reference as amended -/

/-- Split a text into its lines at every `\n`; the terminators are dropped. -/
def splitLines : List Char → List (List Char)
  | [] => [[]]
  | c :: cs =>
    if isNewline c then [] :: splitLines cs
    else
      match splitLines cs with
      | [] => [[c]]
      | l :: ls => (c :: l) :: ls

/-- First whitespace-delimited token of a line (empty for a blank line). -/
def firstToken (line : List Char) : List Char :=
  (line.dropWhile isSpace).takeWhile (fun x => !isSpace x)

/-- What is left of a line after its first token. -/
def afterFirstToken (line : List Char) : List Char :=
  (line.dropWhile isSpace).dropWhile (fun x => !isSpace x)

/-- The text made of the given later lines, each preceded by the newline
that ended the line before it. -/
def laterText : List (List Char) → List Char
  | [] => []
  | l :: ls => (Char.ofNat 10 :: l) ++ laterText ls

/-- A line holds no line terminator. -/
def NoNewline (l : List Char) : Prop := ∀ c ∈ l, isNewline c = false

/-- The text made of the given lines, joined by newlines. -/
def textOf : List (List Char) → List Char
  | [] => []
  | l :: ls => l ++ laterText ls

/-- The value a reference assigns once the key has been found, given the
text in which an integer is looked for.  Whitespace before the integer is
skipped.  An unsigned decimal integer `n < 2^64` gives `n * 1024 mod 2^64`;
text that does not start with an integer gives `0`.  The description fixes no
value when the integer is `2^64` or larger, or when it carries a sign: those
cases are `none`. -/
def valueAfterKey (following : List Char) : Option Nat :=
  let s := following.dropWhile isSpace
  let ds := s.takeWhile Char.isDigit
  if ds ≠ [] then
    if decimalValue ds < 2 ^ 64 then some (decimalValue ds * 1024 % 2 ^ 64) else none
  else
    match s with
    | c :: d :: _ =>
      if (c.toNat = 43 || c.toNat = 45) && d.isDigit then none else some 0
    | _ => some 0

/-- The reference as C1 words it, over the successive lines: look at the
first token of each line; at the first line whose first token is the key,
decide by what follows the key on that line, without looking at later lines;
when no line starts with the key the result is `0`. -/
def claimedLines : List (List Char) → Option Nat
  | [] => some 0
  | line :: later =>
    if firstToken line = memTotalKey then valueAfterKey (afterFirstToken line)
    else claimedLines later

/-- The reference of C1 as worded: `some r` where the description fixes the
result `r`, `none` where it is silent. -/
def getSystemRamClaimed (file : Option (List Char)) : Option Nat :=
  match file with
  | none => some 0
  | some text => claimedLines (splitLines text)

/-- The amended reference over the successive lines.  It differs from
`claimedLines` in one point: at the first line whose first token is the key,
the integer is looked for in all the text after the key, so that it may stand
at the start of a later line when the rest of the key's line is blank. -/
def amendedLines : List (List Char) → Option Nat
  | [] => some 0
  | line :: later =>
    if firstToken line = memTotalKey then
      valueAfterKey (afterFirstToken line ++ laterText later)
    else amendedLines later

/-- The amended reference for `getSystemRam`: `some r` where it fixes the
result `r`, `none` where it is silent. -/
def getSystemRamAmended (file : Option (List Char)) : Option Nat :=
  match file with
  | none => some 0
  | some text => amendedLines (splitLines text)

/-- Every line whose first token is the key has something other than
whitespace after the key. -/
def KeyLinesFilled (lines : List (List Char)) : Prop :=
  ∀ line ∈ lines, firstToken line = memTotalKey →
    (afterFirstToken line).dropWhile isSpace ≠ []

end Sys

/-! ## Part 2: definitions for `findRecursive` and `extractFinished` -/

namespace InstanceImportTask

/-- An entry of the staging directory as `QFileInfo` classifies it: a file
(`isFile()`), a directory (`isDir()`) with its content, or something that is
neither (a socket, a dangling link).  `hidden` is `QFileInfo::isHidden()`:
a leading dot in the name on Unix, the hidden attribute on Windows.  Links
count as what they resolve to; the tree is finite.  The content of a
directory is kept in the order in which `QDir::Name` sorting lists it. -/
inductive Entry where
  | file (name : String) (hidden : Bool)
  | dir (name : String) (hidden : Bool) (children : List Entry)
  | special (name : String) (hidden : Bool)

/-- `QFileInfo::fileName()`. -/
def Entry.fileName : Entry → String
  | .file n _ => n
  | .dir n _ _ => n
  | .special n _ => n

/-- A file that the filter `NoDotAndDotDot | Dirs | Files` lets through:
`QDir::Hidden` is not part of the filter, so hidden entries are left out. -/
def Entry.isListedFile : Entry → Bool
  | .file _ hidden => !hidden
  | _ => false

/-- A directory that the filter `NoDotAndDotDot | Dirs | Files` lets
through; hidden directories are left out as well. -/
def Entry.isListedDir : Entry → Bool
  | .dir _ hidden _ => !hidden
  | _ => false

/-- `QDir(dir).entryInfoList(QDir::NoDotAndDotDot | QDir::Dirs | QDir::Files,
QDir::DirsLast)` applied to the content of `dir`: the entries that pass the
filter, files first and directories last. -/
def entryInfoList (children : List Entry) : List Entry :=
  children.filter Entry.isListedFile ++ children.filter Entry.isListedDir

/-- `info.absoluteFilePath()` of an entry called `name` inside `dir`. -/
def absoluteFilePath (dir name : String) : String := dir ++ "/" ++ name

mutual
/-- `findRecursive(dir, name)` (lines 75-93), where the third argument is the
directory found at path `dir`.  The result is the `QFileInfo` returned:
`some path` for an existing file, `none` for the default `QFileInfo()`.
Because the listing has all files before all directories, the `for` loop is
a pass over the listed files (first branch of the `if`) followed by a pass
over the listed directories (second branch); `findRecursive_eq_loop` states
the loop in its original shape. -/
def findRecursive (dir : String) (name : String) : Entry → Option String
  | .dir _ _ children =>
    match (children.filter Entry.isListedFile).find? (fun info => info.fileName = name) with
    | some info => some (absoluteFilePath dir info.fileName)
    | none => findInDirs dir name children
  | _ => none
/-- The part of the loop that runs over the directories of the listing:
descend into each listed directory in turn and return the first hit. -/
def findInDirs (dir : String) (name : String) : List Entry → Option String
  | [] => none
  | info :: rest =>
    if info.isListedDir then
      match findRecursive (absoluteFilePath dir info.fileName) name info with
      | some res => some res
      | none => findInDirs dir name rest
    else findInDirs dir name rest
end

/-- One iteration of the `for` loop of `findRecursive` (lines 79-90) for a
listed entry `info` of `dir`: `some r` when the iteration returns `r`. -/
def loopBody (dir name : String) (info : Entry) : Option String :=
  match info with
  | .file n _ => if n = name then some (absoluteFilePath dir n) else none
  | .dir n _ _ => findRecursive (absoluteFilePath dir n) name info
  | .special _ _ => none

/-- What `extractFinished` does, in order. -/
inductive Action where
  | destroyStagingPath (path : String)
  | emitFailed (reason : String)
  | processMultiMC (config : String)
  | processFlame (manifest : String)
deriving DecidableEq, Repr

/-- `InstanceImportTask::extractFinished` (lines 108-167).  `extracted` is
`m_extractFuture.result()`, `stagingPath` is `m_stagingPath`, and `staging`
is the directory found there when lines 149-150 run.  The permission loop of
lines 118-147 changes permission bits only, which the tree does not carry;
log output is left out. -/
def extractFinished (extracted : List String) (stagingPath : String) (staging : Entry) :
    List Action :=
  if extracted.isEmpty then
    [.destroyStagingPath stagingPath, .emitFailed "Failed to extract modpack"]
  else
    let instanceCfgFile := findRecursive stagingPath "instance.cfg" staging
    let flameJson := findRecursive stagingPath "manifest.json" staging
    match instanceCfgFile with
    | some config => [.processMultiMC config]
    | none =>
      match flameJson with
      | some manifest => [.processFlame manifest]
      | none =>
        [.destroyStagingPath stagingPath,
         .emitFailed "Archive does not contain a recognized modpack type."]

/-- The tree below a directory contains a file called `name` at some depth,
hidden or not, under hidden directories or not. -/
inductive ContainsFile (name : String) : Entry → Prop where
  | here (d : String) (h : Bool) (cs : List Entry) (fh : Bool) :
      Entry.file name fh ∈ cs → ContainsFile name (.dir d h cs)
  | deeper (d : String) (h : Bool) (cs : List Entry) (sub : Entry) :
      sub ∈ cs → ContainsFile name sub → ContainsFile name (.dir d h cs)

/-- The tree below a directory contains a file called `name` that is not
hidden and that is reached through directories that are not hidden. -/
inductive ListsFile (name : String) : Entry → Prop where
  | here (d : String) (h : Bool) (cs : List Entry) :
      Entry.file name false ∈ cs → ListsFile name (.dir d h cs)
  | deeper (d : String) (h : Bool) (cs : List Entry) (n : String) (sub : List Entry) :
      Entry.dir n false sub ∈ cs → ListsFile name (.dir n false sub) →
      ListsFile name (.dir d h cs)

mutual
/-- Neither the entry nor anything below it is hidden. -/
def Entry.noHidden : Entry → Bool
  | .file _ hidden => !hidden
  | .special _ hidden => !hidden
  | .dir _ hidden children => !hidden && noHiddenList children
/-- No entry of the list, and nothing below one, is hidden. -/
def noHiddenList : List Entry → Bool
  | [] => true
  | e :: rest => e.noHidden && noHiddenList rest
end

/-- Nothing below a directory is hidden (the directory itself may be). -/
def Entry.noHiddenBelow : Entry → Bool
  | .dir _ _ children => noHiddenList children
  | _ => true

/-- A staged pack with a manifest at the top and an instance configuration
one level down. -/
def samplePack : Entry :=
  .dir "staging" false
    [.file "manifest.json" false, .dir "mc" false [.file "instance.cfg" false]]

/-- A staged pack whose instance configuration lies in the hidden directory
`.minecraft`, next to a manifest at the top. -/
def hiddenPack : Entry :=
  .dir "staging" false
    [.dir ".minecraft" true [.file "instance.cfg" false], .file "manifest.json" false]

end InstanceImportTask

/-! ## Part 3: definitions for `convert` and the `EntityProvider` constructor -/

namespace Scripting

/-- A Lua value as the script hands it over.  Functions and userdata are
identified by a reference; a table is the sequence of its key/value pairs in
the order in which iteration visits them. -/
inductive LuaValue where
  | nil
  | boolean (b : Bool)
  | number (n : Int)
  | string (s : String)
  | function (ref : Nat)
  | userdata (ref : Nat)
  | table (fields : List (LuaValue × LuaValue))

/-- The content of a `sol::table`. -/
abbrev Table := List (LuaValue × LuaValue)

/-- The value is the string key `k`. -/
def LuaValue.isKey (k : String) : LuaValue → Bool
  | .string s => s = k
  | _ => false

/-- Indexing `table[k]` with a string key: the stored value, `nil` when the
key is absent. -/
def index (t : Table) (k : String) : LuaValue :=
  match t.find? (fun p => p.1.isKey k) with
  | some p => p.2
  | none => .nil

/-- The test `if (table["static_entities"])` of line 37, which converts the
indexed value to `bool` the way `lua_toboolean` does: `nil` and `false` are
false, every other value is true. -/
def LuaValue.toBoolean : LuaValue → Bool
  | .nil => false
  | .boolean b => b
  | _ => true

/-- `EntityProvider::Entity` without the back pointer to the provider. -/
structure Entity where
  internalId : String
  name : String
  iconUrl : String
deriving DecidableEq, Repr

/-- The helpers of `LuaUtil.h` that the constructor calls.  The header is not
part of the sources at hand, so the helpers are parameters; `E` is whatever
they throw. -/
structure LuaUtil (E : Type) where
  /-- `LuaUtil::requiredString(table, key)`. -/
  requiredString : Table → String → Except E String
  /-- `LuaUtil::optionalString(table, key)`. -/
  optionalString : Table → String → Except E String
  /-- `LuaUtil::required<sol::table>(object)`. -/
  requiredTable : LuaValue → Except E Table
  /-- `LuaUtil::required<sol::table>(table, key)`. -/
  requiredTableAt : Table → String → Except E Table
  /-- `LuaUtil::optional<sol::protected_function>(table, key)`: `some ref`
  for a valid function, `none` for an invalid one (`!internalUpdateFunc`). -/
  optionalFunction : Table → String → Except E (Option Nat)
  /-- `LuaUtil::required<std::function<sol::table(std::string)>>(table, key)`. -/
  requiredFunction : Table → String → Except E Nat

/-- What the helpers are taken to guarantee whatever `LuaUtil.h` does with
values of the wrong type: a required value of the right type is returned as
stored, a required table that is returned is the one stored, and an optional
function is invalid for an absent key and valid for a stored function. -/
structure LuaUtil.Basic {E : Type} (L : LuaUtil E) : Prop where
  requiredString_ok : ∀ t k s, index t k = .string s → L.requiredString t k = .ok s
  requiredTableAt_ok : ∀ t k fs, index t k = .table fs → L.requiredTableAt t k = .ok fs
  requiredTableAt_inv : ∀ t k fs, L.requiredTableAt t k = .ok fs → index t k = .table fs
  optionalFunction_nil : ∀ t k, index t k = .nil → L.optionalFunction t k = .ok none
  optionalFunction_fn :
    ∀ t k f, index t k = .function f → L.optionalFunction t k = .ok (some f)

/-- How constructing an `EntityProvider` can fail: a helper of `LuaUtil`
threw `e`, or line 54 threw `ScriptLoadException(msg)`. -/
inductive Failure (E : Type) where
  | luaUtil (e : E)
  | scriptLoadException (msg : String)

/-- `convert(in, provider)` (lines 15-30): one entity per pair of the table,
in iteration order; the first helper that throws ends the conversion. -/
def convert {E : Type} (L : LuaUtil E) : Table → Except E (List Entity)
  | [] => .ok []
  | pair :: rest =>
    match L.requiredTable pair.2 with
    | .error e => .error e
    | .ok table =>
      match L.requiredString table "id" with
      | .error e => .error e
      | .ok id =>
        match L.requiredString table "name" with
        | .error e => .error e
        | .ok name =>
          match L.optionalString table "icon_url" with
          | .error e => .error e
          | .ok icon =>
            match convert L rest with
            | .error e => .error e
            | .ok out => .ok ({ internalId := id, name := name, iconUrl := icon } :: out)

/-- The text of the exception of line 54 for the provider `id`. -/
def noEntitiesMessage (id : String) : String :=
  "Provided entity with ID '" ++ id ++
    "' does not provide any entities, either static_entities or dynamic_entities need to be non-empty"

/-- The members the constructor sets. -/
structure EntityProvider where
  m_id : String
  m_staticEntities : List Entity
  internalUpdateFunc : Option Nat
  internalListFactoryFunc : Nat
deriving DecidableEq, Repr

/-- Lines 37-40 of the constructor: the value of `m_staticEntities` before
the check, which stays empty unless `table["static_entities"]` is true. -/
def staticEntities {E : Type} (L : LuaUtil E) (table : Table) : Except E (List Entity) :=
  if (index table "static_entities").toBoolean then
    match L.requiredTableAt table "static_entities" with
    | .error e => .error e
    | .ok t => convert L t
  else .ok []

set_option linter.dupNamespace false in
/-- The constructor `EntityProvider::EntityProvider(table, script)`
(lines 32-62): the provider built, or the exception that leaves the
constructor. -/
def EntityProvider.EntityProvider {E : Type} (L : LuaUtil E) (table : Table) :
    Except (Failure E) EntityProvider :=
  match L.requiredString table "id" with
  | .error e => .error (.luaUtil e)
  | .ok m_id =>
    match staticEntities L table with
    | .error e => .error (.luaUtil e)
    | .ok m_staticEntities =>
      match L.optionalFunction table "dynamic_entities" with
      | .error e => .error (.luaUtil e)
      | .ok internalUpdateFunc =>
        if m_staticEntities.isEmpty && internalUpdateFunc.isNone then
          .error (.scriptLoadException (noEntitiesMessage m_id))
        else
          match L.requiredFunction table "version_list_factory" with
          | .error e => .error (.luaUtil e)
          | .ok internalListFactoryFunc =>
            .ok { m_id := m_id, m_staticEntities := m_staticEntities,
                  internalUpdateFunc := internalUpdateFunc,
                  internalListFactoryFunc := internalListFactoryFunc }

/-- The static entity list is empty: `static_entities` is absent or false,
or it is an empty table. -/
def StaticListEmpty (table : Table) : Prop :=
  (index table "static_entities").toBoolean = false ∨ index table "static_entities" = .table []

/-- A sample implementation of the helpers that throws on every value of the
wrong type, an optional function of the wrong type included.  It satisfies
`LuaUtil.Basic` but not `LuaUtil.Sound`. -/
def strictLuaUtil : LuaUtil String where
  requiredString t k :=
    match index t k with
    | .string s => .ok s
    | _ => .error ("expected a string at " ++ k)
  optionalString t k :=
    match index t k with
    | .string s => .ok s
    | .nil => .ok ""
    | _ => .error ("expected a string at " ++ k)
  requiredTable v :=
    match v with
    | .table fs => .ok fs
    | _ => .error "expected a table"
  requiredTableAt t k :=
    match index t k with
    | .table fs => .ok fs
    | _ => .error ("expected a table at " ++ k)
  optionalFunction t k :=
    match index t k with
    | .function f => .ok (some f)
    | .nil => .ok none
    | _ => .error ("expected a function at " ++ k)
  requiredFunction t k :=
    match index t k with
    | .function f => .ok f
    | _ => .error ("expected a function at " ++ k)

/-- A sample implementation that differs from `strictLuaUtil` in one point:
an optional function of the wrong type counts as not given.  It satisfies
`LuaUtil.Sound`. -/
def lenientLuaUtil : LuaUtil String :=
  { strictLuaUtil with
    optionalFunction := fun t k =>
      match index t k with
      | .function f => .ok (some f)
      | _ => .ok none }

/-- A provider table with an `id`, an empty `static_entities` table and a
version list factory, but no `dynamic_entities`. -/
def emptyProvider : Table :=
  [(.string "id", .string "forge"), (.string "static_entities", .table []),
   (.string "version_list_factory", .function 1)]

/-- A provider table with one static entity. -/
def staticProvider : Table :=
  [(.string "id", .string "forge"),
   (.string "static_entities",
      .table [(.number 1, .table [(.string "id", .string "a"), (.string "name", .string "A")])]),
   (.string "version_list_factory", .function 1)]

/-- A provider table whose `dynamic_entities` is a number. -/
def illTypedProvider : Table :=
  [(.string "id", .string "forge"), (.string "dynamic_entities", .number 5),
   (.string "version_list_factory", .function 1)]

end Scripting

/-! ## Part 4: theorems about `Sys::getSystemRam` -/

namespace Sys

theorem isNewline_eq {c : Char} (h : isNewline c = true) : c = Char.ofNat 10 := by
  have h1 : c.toNat = 10 := by simpa [isNewline] using h
  rw [← h1, Char.ofNat_toNat]

theorem isSpace_of_isNewline {c : Char} (h : isNewline c = true) : isSpace c = true := by
  rw [isNewline_eq h]; decide

theorem takeWhile_append_stop {α : Type} (p : α → Bool) (a b : List α)
    (hb : ∀ x, b.head? = some x → p x = false) :
    (a ++ b).takeWhile p = a.takeWhile p := by
  induction a with
  | nil =>
    cases b with
    | nil => rfl
    | cons x xs => simp [List.takeWhile, hb x rfl]
  | cons y ys ih =>
    simp only [List.cons_append, List.takeWhile]
    cases p y <;> simp [ih]

theorem dropWhile_append_stop {α : Type} (p : α → Bool) (a b : List α)
    (hb : ∀ x, b.head? = some x → p x = false) :
    (a ++ b).dropWhile p = a.dropWhile p ++ b := by
  induction a with
  | nil =>
    cases b with
    | nil => rfl
    | cons x xs => simp [List.dropWhile, hb x rfl]
  | cons y ys ih =>
    simp only [List.cons_append, List.dropWhile]
    cases p y <;> simp [ih]

theorem dropWhile_append_all {α : Type} (p : α → Bool) (a b : List α)
    (ha : ∀ x ∈ a, p x = true) :
    (a ++ b).dropWhile p = b.dropWhile p := by
  induction a with
  | nil => rfl
  | cons y ys ih =>
    have hy : p y = true := ha y (List.mem_cons_self _ _)
    simp only [List.cons_append, List.dropWhile, hy]
    exact ih (fun x hx => ha x (List.mem_cons_of_mem _ hx))

theorem dropWhile_eq_nil_all {α : Type} (p : α → Bool) (a : List α)
    (h : a.dropWhile p = []) : ∀ x ∈ a, p x = true := by
  induction a with
  | nil => intro x hx; cases hx
  | cons y ys ih =>
    cases hy : p y with
    | false => simp [List.dropWhile, hy] at h
    | true =>
      simp only [List.dropWhile, hy] at h
      intro x hx
      rcases List.mem_cons.1 hx with rfl | hx
      · exact hy
      · exact ih h x hx

theorem dropWhile_head_false {α : Type} (p : α → Bool) (a : List α) (c : α) (cs : List α)
    (h : a.dropWhile p = c :: cs) : p c = false := by
  induction a with
  | nil => simp at h
  | cons y ys ih =>
    cases hy : p y with
    | false =>
      simp only [List.dropWhile, hy] at h
      cases h
      exact hy
    | true =>
      simp only [List.dropWhile, hy] at h
      exact ih h

theorem dropWhile_length_le {α : Type} (p : α → Bool) (a : List α) :
    (a.dropWhile p).length ≤ a.length := by
  induction a with
  | nil => simp
  | cons y ys ih =>
    cases hy : p y with
    | false => simp [List.dropWhile, hy]
    | true =>
      simp only [List.dropWhile, hy, List.length_cons]
      omega

theorem noNewline_dropWhile {p : Char → Bool} {l : List Char} (h : NoNewline l) :
    NoNewline (l.dropWhile p) := by
  intro c hc
  exact h c ((List.dropWhile_sublist p).subset hc)

theorem laterText_head (later : List (List Char)) :
    ∀ x, (laterText later).head? = some x → x = Char.ofNat 10 := by
  intro x hx
  cases later with
  | nil => simp [laterText] at hx
  | cons l ls =>
    simp [laterText] at hx
    exact hx.symm

theorem laterText_head_space (later : List (List Char)) :
    ∀ x, (laterText later).head? = some x → (fun c => !isSpace c) x = false := by
  intro x hx
  rw [laterText_head later x hx]; decide

theorem laterText_head_newline (later : List (List Char)) :
    ∀ x, (laterText later).head? = some x → (fun c => !isNewline c) x = false := by
  intro x hx
  rw [laterText_head later x hx]; decide

theorem splitLines_spec (text : List Char) :
    ∃ line later, splitLines text = line :: later ∧ text = line ++ laterText later ∧
      NoNewline line ∧ ∀ l ∈ later, NoNewline l := by
  induction text with
  | nil =>
    refine ⟨[], [], rfl, rfl, ?_, ?_⟩
    · intro c hc; cases hc
    · intro l hl; cases hl
  | cons c cs ih =>
    obtain ⟨line, later, hs, ht, hl, hls⟩ := ih
    cases hc : isNewline c with
    | true =>
      refine ⟨[], line :: later, ?_, ?_, ?_, ?_⟩
      · simp [splitLines, hc, hs]
      · rw [isNewline_eq hc]
        simp only [laterText, List.nil_append, List.cons_append]
        rw [← ht]
      · intro x hx; cases hx
      · intro l hl'
        rcases List.mem_cons.1 hl' with rfl | hl'
        · exact hl
        · exact hls l hl'
    | false =>
      refine ⟨c :: line, later, ?_, ?_, ?_, hls⟩
      · simp [splitLines, hc, hs]
      · rw [List.cons_append, ← ht]
      · intro x hx
        rcases List.mem_cons.1 hx with rfl | hx
        · exact hc
        · exact hl x hx

theorem dropWhile_append_of_cons {α : Type} (p : α → Bool) (a b : List α) (c : α)
    (cs : List α) (h : a.dropWhile p = c :: cs) :
    (a ++ b).dropWhile p = c :: (cs ++ b) := by
  induction a with
  | nil => simp at h
  | cons y ys ih =>
    cases hy : p y with
    | false =>
      simp only [List.dropWhile, hy] at h
      simp only [List.cons_append, List.dropWhile, hy]
      cases h
      rfl
    | true =>
      simp only [List.dropWhile, hy] at h
      simp only [List.cons_append, List.dropWhile, hy]
      exact ih h

/-- On a line with a token, followed by later lines, the extractor yields the
first token of the line and leaves the rest of the line and the later text. -/
theorem readToken_line (line : List Char) (later : List (List Char)) (c : Char)
    (cs : List Char) (h : line.dropWhile isSpace = c :: cs) :
    readToken (line ++ laterText later) =
      some (firstToken line, afterFirstToken line ++ laterText later) := by
  have hd : (line ++ laterText later).dropWhile isSpace = c :: (cs ++ laterText later) :=
    dropWhile_append_of_cons isSpace line (laterText later) c cs h
  have e1 : (c :: (cs ++ laterText later)).takeWhile (fun x => !isSpace x)
      = (c :: cs).takeWhile (fun x => !isSpace x) := by
    rw [← List.cons_append]
    exact takeWhile_append_stop _ _ _ (laterText_head_space later)
  have e2 : (c :: (cs ++ laterText later)).dropWhile (fun x => !isSpace x)
      = (c :: cs).dropWhile (fun x => !isSpace x) ++ laterText later := by
    rw [← List.cons_append]
    exact dropWhile_append_stop _ _ _ (laterText_head_space later)
  unfold readToken
  rw [hd]
  simp only [firstToken, afterFirstToken, h]
  rw [e1, e2]

/-- A blank line is skipped by the extractor together with its terminator. -/
theorem readToken_blank (line l : List Char) (ls : List (List Char))
    (h : line.dropWhile isSpace = []) :
    readToken (line ++ laterText (l :: ls)) = readToken (textOf (l :: ls)) := by
  have hall := dropWhile_eq_nil_all isSpace line h
  unfold readToken
  rw [dropWhile_append_all isSpace line _ hall]
  have : (laterText (l :: ls)).dropWhile isSpace = (textOf (l :: ls)).dropWhile isSpace := by
    have h10 : isSpace (Char.ofNat 10) = true := by decide
    simp only [laterText, textOf, List.cons_append]
    rw [List.dropWhile_cons_of_pos h10]
  rw [this]

theorem readToken_blank_last (line : List Char) (h : line.dropWhile isSpace = []) :
    readToken (line ++ laterText []) = none := by
  unfold readToken
  simp [laterText, h]

theorem firstToken_blank (line : List Char) (h : line.dropWhile isSpace = []) :
    firstToken line ≠ memTotalKey := by
  simp only [firstToken, h, List.takeWhile]
  decide

/-- Discarding the rest of a line leaves exactly the later lines. -/
theorem ignoreLine_rest (rest : List Char) (later : List (List Char))
    (h : NoNewline rest) : ignoreLine (rest ++ laterText later) = textOf later := by
  unfold ignoreLine
  rw [dropWhile_append_all (fun x => !isNewline x) rest _ (by
    intro x hx; simp [h x hx])]
  cases later with
  | nil => simp [laterText, textOf]
  | cons l ls =>
    have : isNewline (Char.ofNat 10) = true := by decide
    simp [laterText, textOf, List.dropWhile, this]

theorem scanLoop_congr (fuel : Nat) (a b : Stream) (h : readToken a = readToken b) :
    scanLoop (fuel + 1) a = scanLoop (fuel + 1) b := by
  simp only [scanLoop, h]

theorem not_sign_of_isDigit {c : Char} (h : c.isDigit = true) :
    c.toNat ≠ 45 ∧ c.toNat ≠ 43 := by
  constructor
  · intro h1
    have : c = Char.ofNat 45 := by rw [← h1, Char.ofNat_toNat]
    rw [this] at h
    exact absurd h (by decide)
  · intro h1
    have : c = Char.ofNat 43 := by rw [← h1, Char.ofNat_toNat]
    rw [this] at h
    exact absurd h (by decide)

/-- Where a value is fixed for the text after the key, the extraction of
lines 24-32 on that text returns it. -/
theorem resultAfterKey_of_valueAfterKey (s : List Char) (r : Nat)
    (h : valueAfterKey s = some r) : resultAfterKey s = some r := by
  unfold valueAfterKey at h
  unfold resultAfterKey readUInt64
  cases hs1 : s.dropWhile isSpace with
  | nil =>
    simp only [hs1] at h
    simp at h
    simp [h]
  | cons c t =>
    simp only [hs1] at h
    cases hc : c.isDigit with
    | true =>
      obtain ⟨h45, h43⟩ := not_sign_of_isDigit hc
      have hne : (c :: t).takeWhile Char.isDigit ≠ [] := by
        simp [List.takeWhile, hc]
      simp only [h45, h43, if_false]
      rw [if_pos hne] at h
      rw [if_neg hne]
      by_cases hv : decimalValue ((c :: t).takeWhile Char.isDigit) < 2 ^ 64
      · rw [if_pos hv] at h
        rw [if_neg (Nat.not_le.2 hv)]
        simpa using h
      · rw [if_neg hv] at h
        cases h
    | false =>
      have hnil : (c :: t).takeWhile Char.isDigit = [] := by
        simp [List.takeWhile, hc]
      rw [hnil] at h
      simp only [ne_eq, not_true_eq_false, if_false] at h
      by_cases h45 : c.toNat = 45
      · simp only [h45, if_true]
        cases t with
        | nil => simp at h; simp [h]
        | cons d t2 =>
          cases hd : d.isDigit with
          | true => simp [h45, hd] at h
          | false =>
            simp [h45, hd] at h
            simp [List.takeWhile, hd, h]
      · by_cases h43 : c.toNat = 43
        · simp only [h43, if_true, if_neg h45]
          cases t with
          | nil => simp at h; simp [h]
          | cons d t2 =>
            cases hd : d.isDigit with
            | true => simp [h43, hd] at h
            | false =>
              simp [h43, hd] at h
              simp [List.takeWhile, hd, h]
        · simp only [if_neg h45, if_neg h43, hnil]
          cases t with
          | nil => simp at h; simp [h]
          | cons d t2 =>
            simp [h45, h43] at h
            simp [h]

theorem scanLoop_key (fuel : Nat) (s rest : Stream)
    (h : readToken s = some (memTotalKey, rest)) :
    scanLoop (fuel + 1) s = resultAfterKey rest := by
  simp only [scanLoop, h, resultAfterKey, if_true]

theorem scanLoop_other (fuel : Nat) (s rest : Stream) (token : List Char)
    (h : readToken s = some (token, rest)) (hne : token ≠ memTotalKey) :
    scanLoop (fuel + 1) s = scanLoop fuel (ignoreLine rest) := by
  simp only [scanLoop, h, if_neg hne]

/-- The loop agrees with the amended reference on a text given by its lines,
as soon as the fuel exceeds the number of lines. -/
theorem scanLoop_lines (lines : List (List Char)) :
    (∀ l ∈ lines, NoNewline l) → ∀ fuel r, lines.length < fuel →
      amendedLines lines = some r → scanLoop fuel (textOf lines) = some r := by
  induction lines with
  | nil =>
    intro _ fuel r hf href
    cases fuel with
    | zero => omega
    | succ n =>
      simp only [amendedLines] at href
      simp [scanLoop, textOf, readToken, ← href]
  | cons line later ih =>
    intro hno fuel r hf href
    have hline : NoNewline line := hno line (List.mem_cons_self _ _)
    have hlater : ∀ l ∈ later, NoNewline l := fun l hl => hno l (List.mem_cons_of_mem _ hl)
    cases fuel with
    | zero => omega
    | succ n =>
      have hn : later.length < n + 1 := by
        simp only [List.length_cons] at hf; omega
      simp only [textOf]
      cases hd : line.dropWhile isSpace with
      | nil =>
        have hne := firstToken_blank line hd
        simp only [amendedLines, if_neg hne] at href
        cases later with
        | nil =>
          simp only [amendedLines] at href
          simp [scanLoop, readToken_blank_last line hd, ← href]
        | cons l ls =>
          rw [scanLoop_congr n _ _ (readToken_blank line l ls hd)]
          exact ih hlater (n + 1) r hn href
      | cons c cs =>
        have htok := readToken_line line later c cs hd
        by_cases hkey : firstToken line = memTotalKey
        · simp only [amendedLines, if_pos hkey] at href
          rw [hkey] at htok
          rw [scanLoop_key n _ _ htok]
          exact resultAfterKey_of_valueAfterKey _ r href
        · simp only [amendedLines, if_neg hkey] at href
          rw [scanLoop_other n _ _ _ htok hkey]
          have hrest : NoNewline (afterFirstToken line) := by
            unfold afterFirstToken
            exact noNewline_dropWhile (noNewline_dropWhile hline)
          rw [ignoreLine_rest _ later hrest]
          have hn2 : later.length < n := by
            simp only [List.length_cons] at hf; omega
          exact ih hlater n r hn2 href

/-- More fuel does not change a result already reached. -/
theorem scanLoop_mono (fuel : Nat) :
    ∀ (s : Stream) (r : Nat) (k : Nat), scanLoop fuel s = some r →
      scanLoop (fuel + k) s = some r := by
  induction fuel with
  | zero => intro s r k h; simp [scanLoop] at h
  | succ n ih =>
    intro s r k h
    have e : n + 1 + k = (n + k) + 1 := by omega
    rw [e]
    cases ht : readToken s with
    | none =>
      simp only [scanLoop, ht] at h ⊢
      exact h
    | some p =>
      obtain ⟨token, rest⟩ := p
      by_cases hkey : token = memTotalKey
      · subst hkey
        rw [scanLoop_key n _ _ ht] at h
        rw [scanLoop_key (n + k) _ _ ht]
        exact h
      · rw [scanLoop_other n _ _ _ ht hkey] at h
        rw [scanLoop_other (n + k) _ _ _ ht hkey]
        exact ih _ r k h

theorem readToken_length (s rest : Stream) (token : List Char)
    (h : readToken s = some (token, rest)) : rest.length < s.length := by
  unfold readToken at h
  cases hd : s.dropWhile isSpace with
  | nil => simp [hd] at h
  | cons c cs =>
    simp only [hd, Option.some.injEq, Prod.mk.injEq] at h
    have hc : isSpace c = false := dropWhile_head_false isSpace s c cs hd
    have h1 : rest = cs.dropWhile (fun x => !isSpace x) := by
      rw [← h.2]; simp [List.dropWhile, hc]
    have h2 := dropWhile_length_le (fun x => !isSpace x) cs
    have h3 := dropWhile_length_le isSpace s
    rw [hd] at h3
    simp only [List.length_cons] at h3
    rw [h1]; omega

theorem ignoreLine_length (s : Stream) : (ignoreLine s).length ≤ s.length := by
  unfold ignoreLine
  have := dropWhile_length_le (fun x => !isNewline x) s
  simp only [List.length_drop]
  omega

/-- The loop always terminates: with more fuel than characters it returns. -/
theorem scanLoop_returns (fuel : Nat) :
    ∀ s : Stream, s.length < fuel → ∃ r, scanLoop fuel s = some r := by
  induction fuel with
  | zero => intro s h; omega
  | succ n ih =>
    intro s h
    cases ht : readToken s with
    | none => exact ⟨0, by simp [scanLoop, ht]⟩
    | some p =>
      obtain ⟨token, rest⟩ := p
      by_cases hkey : token = memTotalKey
      · subst hkey
        rw [scanLoop_key n _ _ ht]
        unfold resultAfterKey
        cases readUInt64 rest with
        | none => exact ⟨0, rfl⟩
        | some mem => exact ⟨_, rfl⟩
      · rw [scanLoop_other n _ _ _ ht hkey]
        apply ih
        have h1 := readToken_length s rest token ht
        have h2 := ignoreLine_length rest
        omega

/-- `getSystemRam` always returns a value. -/
theorem getSystemRam_returns (file : Option Stream) : ∃ r, getSystemRam file = some r := by
  cases file with
  | none => exact ⟨0, rfl⟩
  | some text => exact scanLoop_returns (text.length + 1) text (by omega)

theorem scanLoop_lt (fuel : Nat) :
    ∀ (s : Stream) (r : Nat), scanLoop fuel s = some r → r < 2 ^ 64 := by
  induction fuel with
  | zero => intro s r h; simp [scanLoop] at h
  | succ n ih =>
    intro s r h
    cases ht : readToken s with
    | none =>
      simp only [scanLoop, ht, Option.some.injEq] at h
      omega
    | some p =>
      obtain ⟨token, rest⟩ := p
      by_cases hkey : token = memTotalKey
      · subst hkey
        rw [scanLoop_key n _ _ ht] at h
        unfold resultAfterKey at h
        cases hm : readUInt64 rest with
        | none =>
          simp only [hm, Option.some.injEq] at h
          omega
        | some mem =>
          simp only [hm, Option.some.injEq] at h
          rw [← h]
          exact Nat.mod_lt _ (by positivity)
      · rw [scanLoop_other n _ _ _ ht hkey] at h
        exact ih _ r h

/-- The value `getSystemRam` returns fits the return type `uint64_t`. -/
theorem getSystemRam_lt (file : Option Stream) (r : Nat) (h : getSystemRam file = some r) :
    r < 2 ^ 64 := by
  cases file with
  | none =>
    simp only [getSystemRam, Option.some.injEq] at h
    omega
  | some text => exact scanLoop_lt _ text r h

/-- On a text the function returns what the amended reference fixes. -/
theorem scanLoop_text (text : List Char) (r : Nat)
    (h : amendedLines (splitLines text) = some r) :
    scanLoop (text.length + 1) text = some r := by
  obtain ⟨line, later, hs, ht, hl, hls⟩ := splitLines_spec text
  have hno : ∀ l ∈ line :: later, NoNewline l := by
    intro l hl'
    rcases List.mem_cons.1 hl' with rfl | hl'
    · exact hl
    · exact hls l hl'
  have href : amendedLines (line :: later) = some r := by
    rw [← hs]; exact h
  have h1 := scanLoop_lines (line :: later) hno ((line :: later).length + 1) r
    (by omega) href
  have htext : textOf (line :: later) = text := by rw [ht]; rfl
  rw [htext] at h1
  obtain ⟨r2, h2⟩ := scanLoop_returns (text.length + 1) text (by omega)
  have h3 := scanLoop_mono _ text r ((text.length + 1)) h1
  have h4 := scanLoop_mono _ text r2 ((line :: later).length + 1) h2
  have e : (line :: later).length + 1 + (text.length + 1)
      = text.length + 1 + ((line :: later).length + 1) := by omega
  rw [e] at h3
  rw [h3] at h4
  rw [h2]; exact h4.symm

/-- C1, as the code has it.  `Sys::getSystemRam`, as a function of the text
of `/proc/meminfo`, returns the value of the amended reference wherever that
reference fixes one: the first whitespace-delimited token of each successive
line is examined (a key further along a line is never matched); at the first
line whose first token is exactly `MemTotal:`, an unsigned decimal integer
`n < 2^64` that follows the key after any whitespace, line ends included,
gives `n * 1024 mod 2^64` (so the integer may stand at the start of a later
line), and text after the key that does not start with an integer gives `0`
at once, without a search for the key on later lines; no line starting with
the key, an empty file or an unreadable file give `0`.  The function returns
in every such case (`some`), with the fuel `text.length + 1` of its
definition. -/
theorem getSystemRam_eq_amended (file : Option (List Char)) (r : Nat)
    (h : getSystemRamAmended file = some r) : getSystemRam file = some r := by
  cases file with
  | none =>
    simp only [getSystemRamAmended] at h
    simp only [getSystemRam]
    exact h
  | some text =>
    simp only [getSystemRamAmended] at h
    simp only [getSystemRam]
    exact scanLoop_text text r h

/-- Witness for `getSystemRam_eq_amended` on a typical `/proc/meminfo`. -/
theorem getSystemRam_eq_amended_witness :
    getSystemRamAmended
        (some "MemTotal:       16384256 kB\nMemFree:         1234567 kB\n".toList)
      = some 16777478144 ∧
    getSystemRam (some "MemTotal:       16384256 kB\nMemFree:         1234567 kB\n".toList)
      = some 16777478144 :=
  ⟨by decide, getSystemRam_eq_amended _ _ (by decide)⟩

/-- Counterexample to C1 as stated: the key stands alone on the first line
and an integer starts the second.  The reference as worded finds no integer
on the key's line and gives `0` without looking at later lines; the function
skips the line end like any whitespace, reads `42` and returns `43008`. -/
theorem getSystemRam_next_line_counterexample :
    getSystemRamClaimed (some "MemTotal:\n42 kB\n".toList) = some 0 ∧
    getSystemRam (some "MemTotal:\n42 kB\n".toList) = some 43008 := by
  decide

/-- When the rest of the key's line is not blank, looking at the later lines
changes nothing. -/
theorem valueAfterKey_append_later (a : List Char) (later : List (List Char))
    (h : a.dropWhile isSpace ≠ []) :
    valueAfterKey (a ++ laterText later) = valueAfterKey a := by
  cases hd : a.dropWhile isSpace with
  | nil => exact absurd hd h
  | cons c cs =>
    have h1 : (a ++ laterText later).dropWhile isSpace = c :: (cs ++ laterText later) :=
      dropWhile_append_of_cons isSpace a (laterText later) c cs hd
    have hdig : ∀ x, (laterText later).head? = some x → Char.isDigit x = false := by
      intro x hx
      rw [laterText_head later x hx]; decide
    have h2 : (c :: (cs ++ laterText later)).takeWhile Char.isDigit
        = (c :: cs).takeWhile Char.isDigit := by
      rw [← List.cons_append]
      exact takeWhile_append_stop _ _ _ hdig
    unfold valueAfterKey
    simp only [h1, hd, h2]
    by_cases hne : (c :: cs).takeWhile Char.isDigit ≠ []
    · simp only [if_pos hne]
    · simp only [if_neg hne]
      cases cs with
      | cons d t => rfl
      | nil =>
        cases hl : laterText later with
        | nil => rfl
        | cons x xs =>
          have hx := hdig x (by rw [hl]; rfl)
          simp [hx]

/-- On texts whose key lines carry something after the key, the reference as
worded and the amended reference coincide. -/
theorem claimedLines_eq_amendedLines (lines : List (List Char))
    (h : KeyLinesFilled lines) : claimedLines lines = amendedLines lines := by
  induction lines with
  | nil => rfl
  | cons line later ih =>
    have hlater : KeyLinesFilled later :=
      fun l hl => h l (List.mem_cons_of_mem _ hl)
    by_cases hkey : firstToken line = memTotalKey
    · simp only [claimedLines, amendedLines, if_pos hkey]
      exact (valueAfterKey_append_later _ later
        (h line (List.mem_cons_self _ _) hkey)).symm
    · simp only [claimedLines, amendedLines, if_neg hkey]
      exact ih hlater

/-- On texts whose key lines carry something after the key, `getSystemRam`
returns the value of the reference as C1 words it. -/
theorem getSystemRam_eq_claimed (text : List Char) (r : Nat)
    (hfill : KeyLinesFilled (splitLines text))
    (h : getSystemRamClaimed (some text) = some r) : getSystemRam (some text) = some r := by
  simp only [getSystemRamClaimed] at h
  rw [claimedLines_eq_amendedLines _ hfill] at h
  simp only [getSystemRam]
  exact scanLoop_text text r h

/-- The key is matched on a later line when it is the first token there,
blank lines in between being skipped. -/
theorem getSystemRam_later_line :
    getSystemRam (some "MemFree: 7 kB\n\n  MemTotal: 5 kB\n".toList) = some 5120 := by
  decide

/-- A key that is not the first token of its line is not matched. -/
theorem getSystemRam_key_not_first :
    getSystemRam (some "Total MemTotal: 5 kB\n".toList) = some 0 := by
  decide

/-- No integer after the key gives `0`, although a later line has the key
with an integer. -/
theorem getSystemRam_no_integer :
    getSystemRam (some "MemTotal: lots\nMemTotal: 5 kB\n".toList) = some 0 := by
  decide

/-- The amended reference follows the function when the integer stands on
the next line, and both stop at the first text after the key: a second line
that is not an integer gives `0`. -/
theorem getSystemRam_integer_next_line :
    getSystemRamAmended (some "MemTotal:\n42 kB\n".toList) = some 43008 ∧
    getSystemRamAmended (some "MemTotal:\nMemFree: 42 kB\n".toList) = some 0 ∧
    getSystemRam (some "MemTotal:\nMemFree: 42 kB\n".toList) = some 0 := by
  decide

/-- Outside both references: a value of `2^64` or more makes the extraction
fail, and the function returns `0`. -/
theorem getSystemRam_overflow :
    getSystemRamClaimed (some "MemTotal: 18446744073709551616 kB\n".toList) = none ∧
    getSystemRamAmended (some "MemTotal: 18446744073709551616 kB\n".toList) = none ∧
    getSystemRam (some "MemTotal: 18446744073709551616 kB\n".toList) = some 0 := by
  decide

/-- Outside both references: a minus sign is accepted by the extraction and
negates the value modulo `2^64`. -/
theorem getSystemRam_signed :
    getSystemRamClaimed (some "MemTotal: -1 kB\n".toList) = none ∧
    getSystemRamAmended (some "MemTotal: -1 kB\n".toList) = none ∧
    getSystemRam (some "MemTotal: -1 kB\n".toList) = some (2 ^ 64 - 1024) := by
  decide

/-- The product wraps around at `2^64`. -/
theorem getSystemRam_wraps :
    getSystemRam (some "MemTotal: 18446744073709551615 kB\n".toList) = some (2 ^ 64 - 1024) := by
  decide

end Sys

/-! ## Part 5: theorems about `findRecursive` and `extractFinished` -/

namespace InstanceImportTask

theorem isListedFile_iff (e : Entry) :
    e.isListedFile = true ↔ ∃ n, e = .file n false := by
  cases e with
  | file n h => cases h <;> simp [Entry.isListedFile]
  | dir n h cs => simp [Entry.isListedFile]
  | special n h => simp [Entry.isListedFile]

theorem isListedDir_iff (e : Entry) :
    e.isListedDir = true ↔ ∃ n cs, e = .dir n false cs := by
  cases e with
  | file n h => simp [Entry.isListedDir]
  | dir n h cs => cases h <;> simp [Entry.isListedDir]
  | special n h => simp [Entry.isListedDir]

/-- The pass over the listed files finds a file exactly when a file of that
name that is not hidden is among the entries. -/
theorem find_file_isSome (name : String) (cs : List Entry) :
    ((cs.filter Entry.isListedFile).find? (fun info => info.fileName = name)).isSome = true ↔
      Entry.file name false ∈ cs := by
  rw [List.find?_isSome]
  constructor
  · rintro ⟨x, hx, hn⟩
    obtain ⟨hx1, hx2⟩ := List.mem_filter.1 hx
    obtain ⟨n, rfl⟩ := (isListedFile_iff x).1 hx2
    have : n = name := by simpa [Entry.fileName] using hn
    rw [← this]; exact hx1
  · intro h
    exact ⟨_, List.mem_filter.2 ⟨h, rfl⟩, by simp [Entry.fileName]⟩

theorem find_file_name (name : String) (cs : List Entry) (info : Entry)
    (h : (cs.filter Entry.isListedFile).find? (fun info => info.fileName = name) = some info) :
    info.fileName = name := by
  simpa using List.find?_some h

/-- The pass over the directories returns a hit as soon as one listed
directory has one. -/
theorem findInDirs_complete (dir name : String) (cs : List Entry) (n : String)
    (sub : List Entry) (hmem : Entry.dir n false sub ∈ cs)
    (hsub : ∀ d, ∃ p, findRecursive d name (.dir n false sub) = some p) :
    ∃ p, findInDirs dir name cs = some p := by
  induction cs with
  | nil => cases hmem
  | cons e rest ih =>
    by_cases hl : e.isListedDir = true
    · cases hr : findRecursive (absoluteFilePath dir e.fileName) name e with
      | some res => exact ⟨res, by simp [findInDirs, hl, hr]⟩
      | none =>
        rcases List.mem_cons.1 hmem with heq | hmem
        · subst heq
          obtain ⟨p, hp⟩ := hsub (absoluteFilePath dir (Entry.dir n false sub).fileName)
          rw [hp] at hr; cases hr
        · obtain ⟨p, hp⟩ := ih hmem
          exact ⟨p, by simp [findInDirs, hl, hr, hp]⟩
    · rcases List.mem_cons.1 hmem with heq | hmem
      · subst heq
        exact absurd rfl hl
      · obtain ⟨p, hp⟩ := ih hmem
        exact ⟨p, by simp [findInDirs, hl, hp]⟩

/-- Completeness: a file that is listed is found. -/
theorem findRecursive_complete (name : String) (e : Entry) (h : ListsFile name e) :
    ∀ dir, ∃ p, findRecursive dir name e = some p := by
  induction h with
  | here d hd cs hmem =>
    intro dir
    have hs := (find_file_isSome name cs).2 hmem
    cases hf : (cs.filter Entry.isListedFile).find? (fun info => info.fileName = name) with
    | none => rw [hf] at hs; cases hs
    | some info => exact ⟨absoluteFilePath dir info.fileName, by simp [findRecursive, hf]⟩
  | deeper d hd cs n sub hmem _ ih =>
    intro dir
    cases hf : (cs.filter Entry.isListedFile).find? (fun info => info.fileName = name) with
    | some info => exact ⟨absoluteFilePath dir info.fileName, by simp [findRecursive, hf]⟩
    | none =>
      obtain ⟨p, hp⟩ := findInDirs_complete dir name cs n sub hmem ih
      exact ⟨p, by simp [findRecursive, hf, hp]⟩

mutual
/-- Soundness: what is found is a listed file of the requested name. -/
theorem findRecursive_sound (name : String) :
    ∀ (e : Entry) (dir p : String), findRecursive dir name e = some p →
      ListsFile name e ∧ ∃ d, p = absoluteFilePath d name
  | .file _ _, dir, p, h => by simp [findRecursive] at h
  | .special _ _, dir, p, h => by simp [findRecursive] at h
  | .dir d hd cs, dir, p, h => by
    cases hf : (cs.filter Entry.isListedFile).find? (fun info => info.fileName = name) with
    | some info =>
      have hn := find_file_name name cs info hf
      have hmem : Entry.file name false ∈ cs :=
        (find_file_isSome name cs).1 (by rw [hf]; rfl)
      simp only [findRecursive, hf, Option.some.injEq] at h
      exact ⟨ListsFile.here d hd cs hmem, dir, by rw [← h, hn]⟩
    | none =>
      simp only [findRecursive, hf] at h
      obtain ⟨n, sub, hmem, hl, hp⟩ := findInDirs_sound name cs dir p h
      exact ⟨ListsFile.deeper d hd cs n sub hmem hl, hp⟩
/-- Soundness of the pass over the directories. -/
theorem findInDirs_sound (name : String) :
    ∀ (cs : List Entry) (dir p : String), findInDirs dir name cs = some p →
      ∃ n sub, Entry.dir n false sub ∈ cs ∧ ListsFile name (.dir n false sub) ∧
        ∃ d, p = absoluteFilePath d name
  | [], dir, p, h => by simp [findInDirs] at h
  | e :: rest, dir, p, h => by
    by_cases hl : e.isListedDir = true
    · cases hr : findRecursive (absoluteFilePath dir e.fileName) name e with
      | some res =>
        obtain ⟨n, sub, rfl⟩ := (isListedDir_iff e).1 hl
        have hs := findRecursive_sound name _ _ _ hr
        simp only [findInDirs, hl, hr, if_true, Option.some.injEq] at h
        subst h
        exact ⟨n, sub, List.mem_cons_self _ _, hs.1, hs.2⟩
      | none =>
        simp only [findInDirs, hl, hr, if_true] at h
        obtain ⟨n, sub, hmem, hrest⟩ := findInDirs_sound name rest dir p h
        exact ⟨n, sub, List.mem_cons_of_mem _ hmem, hrest⟩
    · simp only [findInDirs, hl] at h
      obtain ⟨n, sub, hmem, hrest⟩ := findInDirs_sound name rest dir p h
      exact ⟨n, sub, List.mem_cons_of_mem _ hmem, hrest⟩
end

/-- `findRecursive` returns a file exactly when one is listed. -/
theorem findRecursive_isSome_iff (dir name : String) (e : Entry) :
    (∃ p, findRecursive dir name e = some p) ↔ ListsFile name e :=
  ⟨fun ⟨p, hp⟩ => (findRecursive_sound name e dir p hp).1,
   fun h => findRecursive_complete name e h dir⟩

theorem findRecursive_eq_none_iff (dir name : String) (e : Entry) :
    findRecursive dir name e = none ↔ ¬ ListsFile name e := by
  rw [← findRecursive_isSome_iff dir name e]
  cases findRecursive dir name e <;> simp

theorem loop_files (dir name : String) (cs : List Entry) :
    (cs.filter Entry.isListedFile).findSome? (loopBody dir name) =
      ((cs.filter Entry.isListedFile).find? (fun info => info.fileName = name)).map
        (fun info => absoluteFilePath dir info.fileName) := by
  induction cs with
  | nil => rfl
  | cons e rest ih =>
    cases e with
    | file n h =>
      cases h with
      | true => simpa [Entry.isListedFile] using ih
      | false =>
        by_cases hn : n = name
        · simp [Entry.isListedFile, loopBody, Entry.fileName, hn]
        · simpa [Entry.isListedFile, loopBody, Entry.fileName, hn] using ih
    | dir n h sub => simpa [Entry.isListedFile] using ih
    | special n h => simpa [Entry.isListedFile] using ih

theorem loop_dirs (dir name : String) (cs : List Entry) :
    (cs.filter Entry.isListedDir).findSome? (loopBody dir name) = findInDirs dir name cs := by
  induction cs with
  | nil => rfl
  | cons e rest ih =>
    cases e with
    | file n h => simpa [Entry.isListedDir, findInDirs] using ih
    | special n h => simpa [Entry.isListedDir, findInDirs] using ih
    | dir n h sub =>
      cases h with
      | true => simpa [Entry.isListedDir, findInDirs] using ih
      | false =>
        cases hr : findRecursive (absoluteFilePath dir n) name (.dir n false sub) with
        | some res => simp [Entry.isListedDir, findInDirs, loopBody, Entry.fileName, hr]
        | none => simpa [Entry.isListedDir, findInDirs, loopBody, Entry.fileName, hr] using ih

/-- `findRecursive` in the shape of the source: the first iteration of the
`for` loop over `entryInfoList` that returns decides the result, and the
result is the default `QFileInfo()` when none returns. -/
theorem findRecursive_eq_loop (dir name d : String) (h : Bool) (cs : List Entry) :
    findRecursive dir name (.dir d h cs) =
      (entryInfoList cs).findSome? (loopBody dir name) := by
  unfold entryInfoList
  rw [List.findSome?_append, loop_files, loop_dirs]
  cases hf : (cs.filter Entry.isListedFile).find? (fun info => info.fileName = name) with
  | some info => simp [findRecursive, hf]
  | none => simp [findRecursive, hf]

/-- A file that is listed is contained in the tree. -/
theorem containsFile_of_listsFile (name : String) (e : Entry) (h : ListsFile name e) :
    ContainsFile name e := by
  induction h with
  | here d hd cs hmem => exact ContainsFile.here d hd cs false hmem
  | deeper d hd cs n sub hmem _ ih => exact ContainsFile.deeper d hd cs _ hmem ih

theorem extractFinished_of_config (extracted : List String) (stagingPath : String)
    (staging : Entry) (hne : extracted ≠ []) (config : String)
    (h : findRecursive stagingPath "instance.cfg" staging = some config) :
    extractFinished extracted stagingPath staging = [.processMultiMC config] := by
  cases extracted with
  | nil => exact absurd rfl hne
  | cons x xs => simp [extractFinished, h]

theorem extractFinished_of_manifest (extracted : List String) (stagingPath : String)
    (staging : Entry) (hne : extracted ≠ []) (manifest : String)
    (h1 : findRecursive stagingPath "instance.cfg" staging = none)
    (h2 : findRecursive stagingPath "manifest.json" staging = some manifest) :
    extractFinished extracted stagingPath staging = [.processFlame manifest] := by
  cases extracted with
  | nil => exact absurd rfl hne
  | cons x xs => simp [extractFinished, h1, h2]

theorem extractFinished_of_neither (extracted : List String) (stagingPath : String)
    (staging : Entry) (hne : extracted ≠ [])
    (h1 : findRecursive stagingPath "instance.cfg" staging = none)
    (h2 : findRecursive stagingPath "manifest.json" staging = none) :
    extractFinished extracted stagingPath staging =
      [.destroyStagingPath stagingPath,
       .emitFailed "Archive does not contain a recognized modpack type."] := by
  cases extracted with
  | nil => exact absurd rfl hne
  | cons x xs => simp [extractFinished, h1, h2]

/-- C2, as the code has it.  For every non-empty extraction result the pack
type is decided by precedence among the files that the directory listing of
`findRecursive` shows, that is, files that are not hidden and lie under no
hidden directory: if such a file named `instance.cfg` exists at any depth the
pack is processed by `processMultiMC` (on a file of that name), even when a
`manifest.json` is also present; otherwise, if such a file named
`manifest.json` exists, the pack is processed by `processFlame` (on a file of
that name); otherwise the staging path is destroyed, the task fails with
"Archive does not contain a recognized modpack type." and neither processor
runs. -/
theorem extractFinished_precedence (extracted : List String) (stagingPath : String)
    (staging : Entry) (hne : extracted ≠ []) :
    (ListsFile "instance.cfg" staging →
      ∃ d, extractFinished extracted stagingPath staging
        = [.processMultiMC (absoluteFilePath d "instance.cfg")]) ∧
    (¬ ListsFile "instance.cfg" staging → ListsFile "manifest.json" staging →
      ∃ d, extractFinished extracted stagingPath staging
        = [.processFlame (absoluteFilePath d "manifest.json")]) ∧
    (¬ ListsFile "instance.cfg" staging → ¬ ListsFile "manifest.json" staging →
      extractFinished extracted stagingPath staging =
        [.destroyStagingPath stagingPath,
         .emitFailed "Archive does not contain a recognized modpack type."]) := by
  refine ⟨?_, ?_, ?_⟩
  · intro h
    obtain ⟨p, hp⟩ := findRecursive_complete _ _ h stagingPath
    obtain ⟨d, hd⟩ := (findRecursive_sound _ _ _ _ hp).2
    refine ⟨d, ?_⟩
    rw [← hd]
    exact extractFinished_of_config extracted stagingPath staging hne p hp
  · intro h1 h2
    have hn := (findRecursive_eq_none_iff stagingPath _ _).2 h1
    obtain ⟨p, hp⟩ := findRecursive_complete _ _ h2 stagingPath
    obtain ⟨d, hd⟩ := (findRecursive_sound _ _ _ _ hp).2
    refine ⟨d, ?_⟩
    rw [← hd]
    exact extractFinished_of_manifest extracted stagingPath staging hne p hn hp
  · intro h1 h2
    exact extractFinished_of_neither extracted stagingPath staging hne
      ((findRecursive_eq_none_iff stagingPath _ _).2 h1)
      ((findRecursive_eq_none_iff stagingPath _ _).2 h2)

/-- Witness for `extractFinished_precedence`: a pack holding both files at
different depths. -/
theorem extractFinished_precedence_witness :
    (["manifest.json", "mc/instance.cfg"] : List String) ≠ [] ∧
    ((ListsFile "instance.cfg" samplePack →
      ∃ d, extractFinished ["manifest.json", "mc/instance.cfg"] "/staging" samplePack
        = [.processMultiMC (absoluteFilePath d "instance.cfg")]) ∧
    (¬ ListsFile "instance.cfg" samplePack → ListsFile "manifest.json" samplePack →
      ∃ d, extractFinished ["manifest.json", "mc/instance.cfg"] "/staging" samplePack
        = [.processFlame (absoluteFilePath d "manifest.json")]) ∧
    (¬ ListsFile "instance.cfg" samplePack → ¬ ListsFile "manifest.json" samplePack →
      extractFinished ["manifest.json", "mc/instance.cfg"] "/staging" samplePack =
        [.destroyStagingPath "/staging",
         .emitFailed "Archive does not contain a recognized modpack type."])) :=
  ⟨by decide, extractFinished_precedence _ _ _ (by decide)⟩

/-- On the sample pack the instance configuration wins over the manifest. -/
theorem extractFinished_samplePack :
    extractFinished ["manifest.json", "mc/instance.cfg"] "/staging" samplePack
      = [.processMultiMC "/staging/mc/instance.cfg"] := by
  decide

/-- Counterexample to C2 as stated: the extracted tree contains a file named
`instance.cfg`, inside the hidden directory `.minecraft`, next to a
`manifest.json`; the listing leaves the hidden directory out, so the pack is
processed by `processFlame` and not by `processMultiMC`. -/
theorem extractFinished_hidden_counterexample :
    ContainsFile "instance.cfg" hiddenPack ∧
    extractFinished [".minecraft/instance.cfg", "manifest.json"] "/staging" hiddenPack
      = [.processFlame "/staging/manifest.json"] := by
  refine ⟨?_, by decide⟩
  refine ContainsFile.deeper _ _ _ (.dir ".minecraft" true [.file "instance.cfg" false])
    (by simp) ?_
  exact ContainsFile.here _ _ _ false (by simp)

theorem noHiddenList_mem (cs : List Entry) (h : noHiddenList cs = true) :
    ∀ e ∈ cs, e.noHidden = true := by
  induction cs with
  | nil => intro e he; cases he
  | cons c rest ih =>
    simp only [noHiddenList, Bool.and_eq_true] at h
    intro e he
    rcases List.mem_cons.1 he with rfl | he
    · exact h.1
    · exact ih h.2 e he

/-- In a tree without hidden entries every file contained is listed. -/
theorem listsFile_of_containsFile (name : String) (e : Entry) (h : ContainsFile name e) :
    e.noHiddenBelow = true → ListsFile name e := by
  induction h with
  | here d hd cs fh hmem =>
    intro hv
    have := noHiddenList_mem cs hv _ hmem
    simp only [Entry.noHidden, Bool.not_eq_true'] at this
    subst this
    exact ListsFile.here d hd cs hmem
  | deeper d hd cs sub hmem hsub ih =>
    intro hv
    have hs := noHiddenList_mem cs hv _ hmem
    cases sub with
    | file n h => cases hsub
    | special n h => cases hsub
    | dir n h sub2 =>
      simp only [Entry.noHidden, Bool.and_eq_true, Bool.not_eq_true'] at hs
      obtain ⟨hh, hs2⟩ := hs
      subst hh
      exact ListsFile.deeper d hd cs n sub2 hmem (ih hs2)

/-- Without hidden entries the precedence holds for every file the extracted
tree contains. -/
theorem extractFinished_precedence_noHidden (extracted : List String) (stagingPath : String)
    (staging : Entry) (hne : extracted ≠ []) (hv : staging.noHiddenBelow = true) :
    (ContainsFile "instance.cfg" staging →
      ∃ config, extractFinished extracted stagingPath staging = [.processMultiMC config]) ∧
    (¬ ContainsFile "instance.cfg" staging → ContainsFile "manifest.json" staging →
      ∃ manifest, extractFinished extracted stagingPath staging = [.processFlame manifest]) ∧
    (¬ ContainsFile "instance.cfg" staging → ¬ ContainsFile "manifest.json" staging →
      extractFinished extracted stagingPath staging =
        [.destroyStagingPath stagingPath,
         .emitFailed "Archive does not contain a recognized modpack type."]) := by
  have none_of : ∀ name, ¬ ContainsFile name staging →
      findRecursive stagingPath name staging = none := fun name hn =>
    (findRecursive_eq_none_iff stagingPath name staging).2
      (fun hl => hn (containsFile_of_listsFile _ _ hl))
  have some_of : ∀ name, ContainsFile name staging →
      ∃ p, findRecursive stagingPath name staging = some p := fun name hc =>
    findRecursive_complete name staging (listsFile_of_containsFile _ _ hc hv) stagingPath
  refine ⟨?_, ?_, ?_⟩
  · intro h
    obtain ⟨p, hp⟩ := some_of _ h
    exact ⟨p, extractFinished_of_config extracted stagingPath staging hne p hp⟩
  · intro hn hm
    obtain ⟨p, hp⟩ := some_of _ hm
    exact ⟨p, extractFinished_of_manifest extracted stagingPath staging hne p
      (none_of _ hn) hp⟩
  · intro hn hm
    exact extractFinished_of_neither extracted stagingPath staging hne
      (none_of _ hn) (none_of _ hm)

/-- An extraction that produced nothing fails before any search. -/
theorem extractFinished_empty (stagingPath : String) (staging : Entry) :
    extractFinished [] stagingPath staging =
      [.destroyStagingPath stagingPath, .emitFailed "Failed to extract modpack"] := by
  rfl

end InstanceImportTask

/-! ## Part 6: theorems about the `EntityProvider` constructor -/

namespace Scripting

/-- A conversion that succeeds yields one entity per pair of the table. -/
theorem convert_length {E : Type} (L : LuaUtil E) :
    ∀ (t : Table) (out : List Entity), convert L t = .ok out → out.length = t.length
  | [], out, h => by
    simp only [convert, Except.ok.injEq] at h
    subst h; rfl
  | pair :: rest, out, h => by
    simp only [convert] at h
    split at h
    · cases h
    · split at h
      · cases h
      · split at h
        · cases h
        · split at h
          · cases h
          · split at h
            · cases h
            · rename_i out2 hrest
              simp only [Except.ok.injEq] at h
              rw [← h]
              simp [convert_length L rest out2 hrest]

/-- After lines 37-40 the static list is empty exactly when `static_entities`
is absent, false or an empty table. -/
theorem staticEntities_nil_iff {E : Type} (L : LuaUtil E) (hL : L.Basic) (table : Table)
    (out : List Entity) (h : staticEntities L table = .ok out) :
    out = [] ↔ StaticListEmpty table := by
  unfold staticEntities at h
  unfold StaticListEmpty
  cases hb : (index table "static_entities").toBoolean with
  | false =>
    simp only [hb, Bool.false_eq_true, if_false, Except.ok.injEq] at h
    simp [h.symm]
  | true =>
    simp only [hb, if_true] at h
    cases hr : L.requiredTableAt table "static_entities" with
    | error e => simp [hr] at h
    | ok t =>
      simp only [hr] at h
      have hidx := hL.requiredTableAt_inv _ _ _ hr
      have hlen := convert_length L t out h
      rw [hidx]
      constructor
      · intro ho
        rw [ho] at hlen
        have : t = [] := List.length_eq_zero.1 hlen.symm
        right; rw [this]
      · intro ht
        rcases ht with ht | ht
        · simp [LuaValue.toBoolean] at ht
        · have : t = [] := by
            injection ht
          rw [this] at hlen
          exact List.length_eq_zero.1 hlen

/-- With a non-empty table the static list, if its conversion succeeds, is
not empty. -/
theorem staticEntities_of_nonempty {E : Type} (L : LuaUtil E) (hL : L.Basic) (table : Table)
    (p : LuaValue × LuaValue) (ps : List (LuaValue × LuaValue))
    (h : index table "static_entities" = .table (p :: ps)) (out : List Entity)
    (ho : staticEntities L table = .ok out) : out ≠ [] := by
  intro hnil
  have := (staticEntities_nil_iff L hL table out ho).1 hnil
  rcases this with h1 | h1
  · rw [h] at h1; simp [LuaValue.toBoolean] at h1
  · rw [h] at h1; injection h1 with h2; cases h2

/-- The provider with an empty `static_entities` table and no
`dynamic_entities` is rejected with the exception of line 54. -/
theorem entityProvider_emptyProvider :
    EntityProvider.EntityProvider lenientLuaUtil emptyProvider
      = .error (.scriptLoadException
          "Provided entity with ID 'forge' does not provide any entities, either static_entities or dynamic_entities need to be non-empty") := by
  rfl

/-- The provider with one static entity is built. -/
theorem entityProvider_staticProvider :
    EntityProvider.EntityProvider lenientLuaUtil staticProvider
      = .ok { m_id := "forge",
              m_staticEntities := [{ internalId := "a", name := "A", iconUrl := "" }],
              internalUpdateFunc := none, internalListFactoryFunc := 1 } := by
  rfl

/-- A `dynamic_entities` of the wrong type.  Helpers that treat the value as
not given, as `LuaUtil.Sound` has it, let the check reject the provider;
helpers that throw on it, which `LuaUtil.Basic` allows, end the constructor
before the check is reached. -/
theorem entityProvider_illTyped :
    EntityProvider.EntityProvider lenientLuaUtil illTypedProvider
      = .error (.scriptLoadException (noEntitiesMessage "forge")) ∧
    EntityProvider.EntityProvider strictLuaUtil illTypedProvider
      = .error (.luaUtil "expected a function at dynamic_entities") := by
  constructor <;> rfl

end Scripting
